import Mathlib

/-! FileTools: `compileandcheckprogrammingfiles/inputs/main.cpp`

A shallow embedding of the averaging program

```
std::vector<int> numbers = {10, 20, 30, 40, 50};
int sum = 0;
for (int n : numbers) { sum += n; }
double average = static_cast<double>(sum) / numbers.size();
std::cout << "The average is: " << average << std::endl;
return 0;
```

* `int` is a 32-bit two's complement integer: values are `Int`s in
  `[INT_MIN, INT_MAX]` and `+=` is addition reduced modulo `2^32` (`wrapInt`).
* a finite `double` is the rational number it denotes; conversions and the
  division round to the nearest binary64 value, ties to even (`roundToDouble`).
* `operator<<` on a `double` with the stream's default flags is the `%g`
  conversion with precision 6 (`formatDouble`).
-/

namespace FileTools

/-! ## The `int` type -/

/-- Smallest value of a 32-bit `int`. -/
def INT_MIN : Int := -2147483648

/-- Largest value of a 32-bit `int`. -/
def INT_MAX : Int := 2147483647

/-- The value `z` is representable in an `int`. -/
def isInt (z : Int) : Prop := INT_MIN ≤ z ∧ z ≤ INT_MAX

instance isIntDecidable (z : Int) : Decidable (isInt z) := by
  unfold isInt
  infer_instance

/-- Reduction of a mathematical integer to the `int` with the same residue
modulo `2^32` (two's complement wrap-around). -/
def wrapInt (z : Int) : Int := (z + 2147483648) % 4294967296 - 2147483648

/-- The compound assignment `sum += n` on `int`s: returns the new `sum`. -/
def addAssign (sum n : Int) : Int := wrapInt (sum + n)

/-! ## The program data and the accumulation loop -/

/-- The vector `numbers` of `main`. -/
def numbers : List Int := [10, 20, 30, 40, 50]

/-- The range-based loop `for (int n : numbers) { sum += n; }`, started
with the accumulator at `sum`; returns the accumulator after the loop. -/
def loop (sum : Int) : List Int → Int
  | [] => sum
  | n :: rest => loop (addAssign sum n) rest

/-- The accumulator values in the order they are held: the initial value and
the value after each iteration of `loop`. -/
def loopTrace (sum : Int) : List Int → List Int
  | [] => [sum]
  | n :: rest => sum :: loopTrace (addAssign sum n) rest

/-- The declaration `int sum = 0;` followed by the loop over `xs`: the value
of `sum` after the loop. -/
def sumOf (xs : List Int) : Int := loop 0 xs

/-- No iteration of the loop started at `sum` overflows: each mathematical
value `sum + n` is representable, so `sum += n` stores it unchanged. -/
def noOverflow (sum : Int) : List Int → Prop
  | [] => True
  | n :: rest => isInt (sum + n) ∧ noOverflow (sum + n) rest

instance noOverflowDecidable : (sum : Int) → (xs : List Int) → Decidable (noOverflow sum xs)
  | _, [] => isTrue trivial
  | sum, n :: rest =>
    have := noOverflowDecidable (sum + n) rest
    inferInstanceAs (Decidable (isInt (sum + n) ∧ noOverflow (sum + n) rest))

/-- The left fold of addition over the sequence, reduced to 32-bit
wrap-around arithmetic: the specification the loop is compared with. -/
def foldSpec (xs : List Int) : Int := wrapInt (List.foldl (fun acc n => acc + n) 0 xs)

/-! ## Extremes of a sequence -/

/-- The smallest element of a sequence, 0 for the empty one. -/
def smallest : List Int → Int
  | [] => 0
  | n :: rest => rest.foldl min n

/-- The largest element of a sequence, 0 for the empty one. -/
def largest : List Int → Int
  | [] => 0
  | n :: rest => rest.foldl max n

/-! ## The `double` type

A finite `double` is modelled by the rational number it denotes.  Signed
zeros, infinities and NaN have no counterpart: an operation whose IEEE 754
result is not finite returns `none`. -/

/-- Rounding of a rational to the nearest integer, ties to the even one. -/
def roundHalfEven (x : Rat) : Int :=
  let f := ⌊x⌋
  let r := x - f
  if r < 1 / 2 then f
  else if 1 / 2 < r then f + 1
  else if f % 2 = 0 then f
  else f + 1

/-- Rounding of a rational to the nearest binary64 value, ties to even: the
significand has 53 bits and the exponent of the least significant bit is at
least `-1074` (subnormal range).  Overflow to infinity, which needs a
magnitude of at least `2^1024 - 2^970`, is not modelled; this program's
values stay below `2^64`. -/
def roundToDouble (x : Rat) : Rat :=
  if x = 0 then 0
  else
    let e := max (Int.log 2 |x|) (-1022)
    (roundHalfEven (x / (2 : Rat) ^ (e - 52)) : Rat) * (2 : Rat) ^ (e - 52)

/-- The conversion `static_cast<double>(sum)` of an `int`. -/
def intToDouble (z : Int) : Rat := roundToDouble z

/-- The implicit conversion of `numbers.size()`, a `size_t`, to `double`
(usual arithmetic conversions of the operands of `/`). -/
def sizeToDouble (n : Nat) : Rat := roundToDouble n

/-- The `double` division `a / b`, guarded: a zero divisor gives an infinity
or a NaN, which is reported as `none`. -/
def divide (a b : Rat) : Option Rat :=
  if b = 0 then none else some (roundToDouble (a / b))

/-- The value of `average` when the vector holds `xs`:
`static_cast<double>(sum) / numbers.size()` with `sum` computed by the loop. -/
def average (xs : List Int) : Option Rat :=
  divide (intToDouble (sumOf xs)) (sizeToDouble xs.length)

/-- The quotient of the loop's `sum` by the size taken as an exact rational,
that is, the number the `double` division rounds. -/
def averageExact (xs : List Int) : Rat := (sumOf xs : Rat) / (xs.length : Rat)

/-- The arithmetic mean of the mathematical sum, computed in floating point:
the value the specification assigns to `average`. -/
def meanSpec (xs : List Int) : Option Rat :=
  divide (roundToDouble (xs.sum : Rat)) (sizeToDouble xs.length)

/-- The arithmetic mean of the mathematical sum as an exact rational. -/
def meanExact (xs : List Int) : Rat := (xs.sum : Rat) / (xs.length : Rat)

/-! ## Output -/

/-- Removal of the trailing `'0'` characters of a digit string. -/
def stripTrailingZeros (ds : List Char) : List Char :=
  (ds.reverse.dropWhile (fun c => c == '0')).reverse

/-- An integer part followed by a fraction; the decimal point is dropped
when no fraction digit is left. -/
def withFraction (intPart frac : List Char) : String :=
  if frac = [] then String.mk intPart else String.mk (intPart ++ '.' :: frac)

/-- The text `std::cout << x` inserts for a finite `double` with the stream's
default flags: the `%g` conversion with precision 6.  The value is rounded to
six significant decimal digits (ties to even on the exact value); with `e`
the decimal exponent after rounding, fixed notation is used when
`-4 ≤ e < 6` and scientific notation otherwise, and trailing zeros of the
fraction are removed. -/
def formatDouble (x : Rat) : String :=
  if x = 0 then "0"
  else
    let a := |x|
    let e0 := Int.log 10 a
    let m0 := (roundHalfEven (a / (10 : Rat) ^ (e0 - 5))).toNat
    let m := if m0 = 1000000 then 100000 else m0
    let e := if m0 = 1000000 then e0 + 1 else e0
    let ds := Nat.toDigits 10 m
    let sign := if x < 0 then "-" else ""
    let body :=
      if e < -4 ∨ 6 ≤ e then
        withFraction (ds.take 1) (stripTrailingZeros (ds.drop 1))
          ++ "e" ++ (if e < 0 then "-" else "+")
          ++ (if e.natAbs < 10 then "0" else "") ++ toString e.natAbs
      else if 0 ≤ e then
        withFraction (ds.take (e.toNat + 1)) (stripTrailingZeros (ds.drop (e.toNat + 1)))
      else
        withFraction ['0'] (stripTrailingZeros (List.replicate (e.natAbs - 1) '0' ++ ds))
    sign ++ body

/-! ## The program -/

/-- What a process is started with.  `int main()` declares no parameters and
the body reads no environment variable. -/
structure Environment where
  /-- Command-line arguments. -/
  args : List String
  /-- Environment variables. -/
  vars : List (String × String)

/-- What a run leaves behind: the text written to standard output and the
exit status. -/
structure Outcome where
  /-- Text written to `std::cout`. -/
  stdout : String
  /-- Value returned from `main`. -/
  exitCode : Int
  deriving DecidableEq

/-- The one way a run can leave the embedding: `average` is not a finite
`double`. -/
inductive Fault where
  | nonFiniteAverage
  deriving DecidableEq

/-- The body of `main` with the vector holding `xs`: the loop, the division,
the output statement (`std::endl` writes a newline) and `return 0;`. -/
def run (xs : List Int) : Except Fault Outcome :=
  match average xs with
  | none => Except.error Fault.nonFiniteAverage
  | some avg => Except.ok ⟨"The average is: " ++ formatDouble avg ++ "\n", 0⟩

/-- The program: `main` with the hardcoded vector. -/
def main (_env : Environment) : Except Fault Outcome := run numbers

/-! ## Lemmas on `int` arithmetic and the loop -/

theorem wrapInt_isInt (z : Int) : isInt (wrapInt z) := by
  unfold isInt wrapInt INT_MIN INT_MAX
  omega

theorem wrapInt_of_isInt {z : Int} (h : isInt z) : wrapInt z = z := by
  unfold isInt INT_MIN INT_MAX at h
  unfold wrapInt
  omega

theorem isInt_of_wrapInt_eq {z : Int} (h : wrapInt z = z) : isInt z := by
  rw [← h]
  exact wrapInt_isInt z

theorem wrapInt_add_left (a b : Int) : wrapInt (wrapInt a + b) = wrapInt (a + b) := by
  unfold wrapInt
  omega

/-- The loop started at a reduced accumulator ends at the reduction of the
mathematical total. -/
theorem loop_wrapInt (xs : List Int) (s : Int) :
    loop (wrapInt s) xs = wrapInt (s + xs.sum) := by
  induction xs generalizing s with
  | nil => simp [loop]
  | cons n rest ih =>
    simp only [loop, addAssign, List.sum_cons]
    rw [wrapInt_add_left, ih, add_assoc]

theorem sumOf_eq_wrapInt_sum (xs : List Int) : sumOf xs = wrapInt xs.sum := by
  have h := loop_wrapInt xs 0
  have h0 : wrapInt 0 = 0 := by decide
  rw [h0, zero_add] at h
  exact h

theorem sumOf_isInt (xs : List Int) : isInt (sumOf xs) := by
  rw [sumOf_eq_wrapInt_sum]
  exact wrapInt_isInt _

theorem foldl_add_eq_sum (xs : List Int) (s : Int) :
    List.foldl (fun acc n => acc + n) s xs = s + xs.sum := by
  induction xs generalizing s with
  | nil => simp
  | cons n rest ih => simp [List.foldl_cons, ih, add_assoc]

/-- Without overflow the loop adds the mathematical total to the accumulator. -/
theorem loop_of_noOverflow (xs : List Int) (s : Int) (h : noOverflow s xs) :
    loop s xs = s + xs.sum := by
  induction xs generalizing s with
  | nil => simp [loop]
  | cons n rest ih =>
    obtain ⟨hn, hrest⟩ := h
    simp only [loop, addAssign, List.sum_cons]
    rw [wrapInt_of_isInt hn, ih _ hrest, add_assoc]

theorem sumOf_of_noOverflow (xs : List Int) (h : noOverflow 0 xs) : sumOf xs = xs.sum := by
  have := loop_of_noOverflow xs 0 h
  simpa [sumOf] using this

/-! ## Lemmas on `double` arithmetic -/

theorem roundHalfEven_intCast (z : Int) : roundHalfEven (z : Rat) = z := by
  simp [roundHalfEven]

theorem log_two_intCast_bounds (z : Int) (hz : z ≠ 0) (h : |z| < 2 ^ 53) :
    0 ≤ Int.log 2 |(z : Rat)| ∧ Int.log 2 |(z : Rat)| ≤ 52 := by
  have h1 : (1 : Rat) ≤ |(z : Rat)| := by
    have : 1 ≤ |z| := Int.one_le_abs hz
    exact_mod_cast this
  have hpos : (0 : Rat) < |(z : Rat)| := lt_of_lt_of_le one_pos h1
  constructor
  · exact (Int.zpow_le_iff_le_log (b := 2) (by norm_num) (x := 0) hpos).1 (by simpa using h1)
  · have hlt : |(z : Rat)| < ((2 : Nat) : Rat) ^ ((52 : Int) + 1) := by
      have : ((|z| : Int) : Rat) < ((2 ^ 53 : Int) : Rat) := by exact_mod_cast h
      rw [Int.cast_abs] at this
      norm_num at this ⊢
      simpa using this
    have := (Int.lt_zpow_iff_log_lt (b := 2) (by norm_num) (x := 53) hpos).1 (by simpa using hlt)
    omega

/-- Every integer of magnitude below `2^53` is a binary64 value. -/
theorem roundToDouble_intCast (z : Int) (h : |z| < 2 ^ 53) : roundToDouble (z : Rat) = z := by
  by_cases hz : z = 0
  · simp [roundToDouble, hz]
  obtain ⟨h0, h52⟩ := log_two_intCast_bounds z hz h
  have hzq : (z : Rat) ≠ 0 := by exact_mod_cast hz
  unfold roundToDouble
  rw [if_neg hzq]
  simp only
  have hmax : max (Int.log 2 |(z : Rat)|) (-1022) = Int.log 2 |(z : Rat)| := by
    apply max_eq_left
    omega
  rw [hmax]
  generalize Int.log 2 |(z : Rat)| = e at h0 h52
  obtain ⟨k, hk⟩ : ∃ k : Nat, e - 52 = -(k : Int) := ⟨(52 - e).toNat, by omega⟩
  rw [hk, zpow_neg, zpow_natCast, div_inv_eq_mul]
  have hcast : (z : Rat) * 2 ^ k = ((z * 2 ^ k : Int) : Rat) := by
    push_cast
    ring
  rw [hcast, roundHalfEven_intCast]
  push_cast
  field_simp

/-- The conversion of an `int` to `double` is exact. -/
theorem intToDouble_of_isInt {z : Int} (h : isInt z) : intToDouble z = z := by
  unfold isInt INT_MIN INT_MAX at h
  apply roundToDouble_intCast
  rw [abs_lt]
  constructor <;> omega

/-- The conversion of a size below `2^53` to `double` is exact. -/
theorem sizeToDouble_of_lt {n : Nat} (h : n < 2 ^ 53) : sizeToDouble n = n := by
  have := roundToDouble_intCast (n : Int) (by rw [abs_lt]; constructor <;> omega)
  simpa [sizeToDouble] using this

/-- The `double` division is exact when the quotient of two exactly
represented integers is an integer. -/
theorem divide_of_dvd (z q : Int) (n : Nat) (hz : |z| < 2 ^ 53) (hq : |q| < 2 ^ 53)
    (hn : n < 2 ^ 53) (hn0 : n ≠ 0) (h : z = q * n) :
    divide (roundToDouble (z : Rat)) (sizeToDouble n) = some (q : Rat) := by
  have hnq : (n : Rat) ≠ 0 := by exact_mod_cast hn0
  rw [roundToDouble_intCast z hz, sizeToDouble_of_lt hn]
  unfold divide
  rw [if_neg hnq]
  have hdiv : (z : Rat) / (n : Rat) = (q : Rat) := by
    rw [h]
    push_cast
    field_simp
  rw [hdiv, roundToDouble_intCast q hq]

/-- The `double` average is the rounding of the exact quotient. -/
theorem average_eq_roundToDouble (xs : List Int) (hne : xs ≠ []) (hlen : xs.length < 2 ^ 53) :
    average xs = some (roundToDouble (averageExact xs)) := by
  have hlen0 : (xs.length : Rat) ≠ 0 := by
    have : xs.length ≠ 0 := by simpa using hne
    exact_mod_cast this
  unfold average averageExact divide
  rw [intToDouble_of_isInt (sumOf_isInt xs), sizeToDouble_of_lt hlen, if_neg hlen0]

theorem sumOf_numbers : sumOf numbers = 150 := by decide

theorem average_numbers : average numbers = some 30 := by
  have h := divide_of_dvd 150 30 5 (by decide) (by decide) (by decide) (by decide) (by decide)
  unfold average intToDouble
  rw [sumOf_numbers]
  simpa [numbers] using h

/-! ## Lemmas on the output -/

theorem log_ten_thirty : Int.log 10 |(30 : Rat)| = 1 := by
  rw [abs_of_pos (by norm_num), Int.log_of_one_le_right _ (by norm_num)]
  have hfloor : ⌊(30 : Rat)⌋₊ = 30 := Nat.floor_ofNat 30
  rw [hfloor]
  have hlog : Nat.log 10 30 = 1 := by
    rw [Nat.log_eq_iff] <;> norm_num
  simp [hlog]

theorem formatDouble_thirty : formatDouble 30 = "30" := by
  unfold formatDouble
  rw [if_neg (by norm_num)]
  simp only [log_ten_thirty]
  have h : (30 : Rat) / (10 : Rat) ^ ((1 : Int) - 5) = ((300000 : Int) : Rat) := by
    norm_num [zpow_neg]
  rw [abs_of_pos (by norm_num : (0 : Rat) < 30), h, roundHalfEven_intCast]
  decide

theorem run_numbers : run numbers = Except.ok ⟨"The average is: 30\n", 0⟩ := by
  unfold run
  rw [average_numbers]
  simp only [formatDouble_thirty]
  rfl

theorem main_eq (env : Environment) : main env = Except.ok ⟨"The average is: 30\n", 0⟩ :=
  run_numbers

theorem sizeToDouble_numbers : sizeToDouble numbers.length = 5 := by
  have h := sizeToDouble_of_lt (n := 5) (by decide)
  simpa [numbers] using h

theorem averageExact_eq_meanExact_iff (S : List Int) (hne : S ≠ []) :
    averageExact S = meanExact S ↔ isInt S.sum := by
  have hlen : (S.length : Rat) ≠ 0 := by
    have : S.length ≠ 0 := by simpa using hne
    exact_mod_cast this
  unfold averageExact meanExact
  rw [sumOf_eq_wrapInt_sum, div_left_inj' hlen]
  constructor
  · intro h
    exact isInt_of_wrapInt_eq (by exact_mod_cast h)
  · intro h
    rw [wrapInt_of_isInt h]

/-! ## Lemmas on the mean and the extremes -/

theorem foldl_min_le (xs : List Int) (a : Int) :
    xs.foldl min a ≤ a ∧ ∀ n ∈ xs, xs.foldl min a ≤ n := by
  induction xs generalizing a with
  | nil => simp
  | cons x rest ih =>
    obtain ⟨h1, h2⟩ := ih (min a x)
    refine ⟨le_trans h1 (min_le_left a x), ?_⟩
    intro n hn
    rcases List.mem_cons.1 hn with rfl | hn
    · exact le_trans h1 (min_le_right a n)
    · exact h2 n hn

theorem foldl_min_mem (xs : List Int) (a : Int) : xs.foldl min a ∈ a :: xs := by
  induction xs generalizing a with
  | nil => simp
  | cons x rest ih =>
    have h := ih (min a x)
    rcases List.mem_cons.1 h with h | h
    · rw [List.foldl_cons, h]
      rcases min_choice a x with hm | hm <;> simp [hm]
    · simp [List.foldl_cons, h]

theorem le_foldl_max (xs : List Int) (a : Int) :
    a ≤ xs.foldl max a ∧ ∀ n ∈ xs, n ≤ xs.foldl max a := by
  induction xs generalizing a with
  | nil => simp
  | cons x rest ih =>
    obtain ⟨h1, h2⟩ := ih (max a x)
    refine ⟨le_trans (le_max_left a x) h1, ?_⟩
    intro n hn
    rcases List.mem_cons.1 hn with rfl | hn
    · exact le_trans (le_max_right a n) h1
    · exact h2 n hn

theorem foldl_max_mem (xs : List Int) (a : Int) : xs.foldl max a ∈ a :: xs := by
  induction xs generalizing a with
  | nil => simp
  | cons x rest ih =>
    have h := ih (max a x)
    rcases List.mem_cons.1 h with h | h
    · rw [List.foldl_cons, h]
      rcases max_choice a x with hm | hm <;> simp [hm]
    · simp [List.foldl_cons, h]

theorem smallest_mem {S : List Int} (hne : S ≠ []) : smallest S ∈ S := by
  cases S with
  | nil => exact absurd rfl hne
  | cons n rest => exact foldl_min_mem rest n

theorem largest_mem {S : List Int} (hne : S ≠ []) : largest S ∈ S := by
  cases S with
  | nil => exact absurd rfl hne
  | cons n rest => exact foldl_max_mem rest n

theorem smallest_le {S : List Int} {n : Int} (hn : n ∈ S) : smallest S ≤ n := by
  cases S with
  | nil => simp at hn
  | cons a rest =>
    rcases List.mem_cons.1 hn with rfl | hn
    · exact (foldl_min_le rest n).1
    · exact (foldl_min_le rest a).2 n hn

theorem le_largest {S : List Int} {n : Int} (hn : n ∈ S) : n ≤ largest S := by
  cases S with
  | nil => simp at hn
  | cons a rest =>
    rcases List.mem_cons.1 hn with rfl | hn
    · exact (le_foldl_max rest n).1
    · exact (le_foldl_max rest a).2 n hn

theorem length_mul_le_sum (S : List Int) (lo : Int) (h : ∀ n ∈ S, lo ≤ n) :
    (S.length : Int) * lo ≤ S.sum := by
  induction S with
  | nil => simp
  | cons a rest ih =>
    have h1 := h a (List.mem_cons_self a rest)
    have h2 := ih (fun n hn => h n (List.mem_cons_of_mem a hn))
    simp only [List.length_cons, List.sum_cons]
    push_cast
    linarith

theorem sum_le_length_mul (S : List Int) (hi : Int) (h : ∀ n ∈ S, n ≤ hi) :
    S.sum ≤ (S.length : Int) * hi := by
  induction S with
  | nil => simp
  | cons a rest ih =>
    have h1 := h a (List.mem_cons_self a rest)
    have h2 := ih (fun n hn => h n (List.mem_cons_of_mem a hn))
    simp only [List.length_cons, List.sum_cons]
    push_cast
    linarith

/-- The exact mean of a non-empty sequence lies between any lower and upper
bound of its elements. -/
theorem meanExact_between (S : List Int) (hne : S ≠ []) (lo hi : Int)
    (hlo : ∀ n ∈ S, lo ≤ n) (hhi : ∀ n ∈ S, n ≤ hi) :
    (lo : Rat) ≤ meanExact S ∧ meanExact S ≤ (hi : Rat) := by
  have hlen : (0 : Rat) < (S.length : Rat) := by
    have : 0 < S.length := List.length_pos.2 hne
    exact_mod_cast this
  have h1 : ((S.length : Int) : Rat) * (lo : Rat) ≤ (S.sum : Rat) := by
    exact_mod_cast length_mul_le_sum S lo hlo
  have h2 : (S.sum : Rat) ≤ ((S.length : Int) : Rat) * (hi : Rat) := by
    exact_mod_cast sum_le_length_mul S hi hhi
  simp only [Int.cast_natCast] at h1 h2
  unfold meanExact
  constructor
  · rw [le_div_iff₀ hlen]
    linarith
  · rw [div_le_iff₀ hlen]
    linarith

theorem averageExact_of_noOverflow (S : List Int) (hno : noOverflow 0 S) :
    averageExact S = meanExact S := by
  unfold averageExact meanExact
  rw [sumOf_of_noOverflow S hno]


theorem roundHalfEven_le {y : Rat} {k : Int} (h : y ≤ (k : Rat)) : roundHalfEven y ≤ k := by
  have hfl : ⌊y⌋ ≤ k := Int.floor_le_floor h |>.trans (by simp)
  have hstep : 0 < y - (⌊y⌋ : Rat) → ⌊y⌋ + 1 ≤ k := by
    intro hpos
    have hlt : ((⌊y⌋ : Int) : Rat) < (k : Rat) := by linarith
    have : ⌊y⌋ < k := by exact_mod_cast hlt
    omega
  unfold roundHalfEven
  simp only
  split_ifs with h1 h2 h3
  · exact hfl
  · exact hstep (by linarith)
  · exact hfl
  · exact hstep (by linarith)

theorem le_roundHalfEven {y : Rat} {k : Int} (h : (k : Rat) ≤ y) : k ≤ roundHalfEven y := by
  have hfl : k ≤ ⌊y⌋ := Int.le_floor.2 h
  unfold roundHalfEven
  simp only
  split_ifs <;> omega

/-- Rounding to binary64 does not cross an integer of magnitude below `2^53`. -/
theorem roundToDouble_between (x : Rat) (lo hi : Int) (hlo : |lo| < 2 ^ 53)
    (hhi : |hi| < 2 ^ 53) (h1 : (lo : Rat) ≤ x) (h2 : x ≤ (hi : Rat)) :
    (lo : Rat) ≤ roundToDouble x ∧ roundToDouble x ≤ (hi : Rat) := by
  by_cases hx : x = 0
  · subst hx
    simpa [roundToDouble] using And.intro h1 h2
  have hpos : (0 : Rat) < |x| := abs_pos.2 hx
  have hloq : -(2 : Rat) ^ 53 < (lo : Rat) := by
    have : -(2 : Int) ^ 53 < lo := (abs_lt.1 hlo).1
    exact_mod_cast this
  have hhiq : (hi : Rat) < (2 : Rat) ^ 53 := by
    have : hi < (2 : Int) ^ 53 := (abs_lt.1 hhi).2
    exact_mod_cast this
  have habs : |x| < ((2 : Nat) : Rat) ^ (53 : Int) := by
    rw [abs_lt]
    norm_num
    constructor <;> linarith
  have hlog : Int.log 2 |x| < 53 := (Int.lt_zpow_iff_log_lt (b := 2) (by norm_num) hpos).1 habs
  unfold roundToDouble
  rw [if_neg hx]
  simp only
  obtain ⟨j, hj⟩ : ∃ j : Nat, max (Int.log 2 |x|) (-1022) - 52 = -(j : Int) :=
    ⟨(52 - max (Int.log 2 |x|) (-1022)).toNat, by omega⟩
  rw [hj, zpow_neg, zpow_natCast, div_inv_eq_mul]
  have hpow : (0 : Rat) < 2 ^ j := by positivity
  have hup : roundHalfEven (x * 2 ^ j) ≤ hi * 2 ^ j := by
    apply roundHalfEven_le
    push_cast
    exact mul_le_mul_of_nonneg_right h2 hpow.le
  have hdown : lo * 2 ^ j ≤ roundHalfEven (x * 2 ^ j) := by
    apply le_roundHalfEven
    push_cast
    exact mul_le_mul_of_nonneg_right h1 hpow.le
  have hupq : ((roundHalfEven (x * 2 ^ j) : Int) : Rat) ≤ (hi : Rat) * 2 ^ j := by
    exact_mod_cast hup
  have hdownq : (lo : Rat) * 2 ^ j ≤ ((roundHalfEven (x * 2 ^ j) : Int) : Rat) := by
    exact_mod_cast hdown
  constructor
  · rw [← div_eq_mul_inv, le_div_iff₀ hpow]
    exact hdownq
  · rw [← div_eq_mul_inv, div_le_iff₀ hpow]
    exact hupq

theorem abs_lt_of_isInt {z : Int} (h : isInt z) : |z| < 2 ^ 53 := by
  unfold isInt INT_MIN INT_MAX at h
  rw [abs_lt]
  constructor <;> omega

/-- The `double` average of a non-empty sequence of `int`s summed without
overflow lies between the smallest and the largest element. -/
theorem average_between (S : List Int) (hne : S ≠ []) (hS : ∀ n ∈ S, isInt n)
    (hno : noOverflow 0 S) (hlen : S.length < 2 ^ 53) :
    ∃ a, average S = some a ∧ (smallest S : Rat) ≤ a ∧ a ≤ (largest S : Rat) := by
  obtain ⟨h1, h2⟩ := meanExact_between S hne (smallest S) (largest S)
    (fun n hn => smallest_le hn) (fun n hn => le_largest hn)
  refine ⟨_, average_eq_roundToDouble S hne hlen, ?_⟩
  rw [averageExact_of_noOverflow S hno]
  exact roundToDouble_between _ _ _ (abs_lt_of_isInt (hS _ (smallest_mem hne)))
    (abs_lt_of_isInt (hS _ (largest_mem hne))) h1 h2

/-! ## The claims -/

/-- C1: for the hardcoded sequence `[10, 20, 30, 40, 50]` the accumulator
`sum` after the loop is 150, the size is 5, and `average` is exactly 30, both
as the `double` the program computes and as the exact quotient. -/
theorem C1_sum_and_average :
    numbers = [10, 20, 30, 40, 50] ∧ sumOf numbers = 150 ∧ numbers.length = 5 ∧
      average numbers = some 30 ∧ averageExact numbers = 30 := by
  refine ⟨rfl, sumOf_numbers, rfl, average_numbers, ?_⟩
  unfold averageExact
  rw [sumOf_numbers]
  norm_num [numbers]

/-- C2: whatever the environment, the text `main` writes to standard output
is the single line `The average is: 30` ended by one newline; the value 30 is
rendered by the default floating-point formatting as `30`. -/
theorem C2_standard_output (env : Environment) :
    ∃ out, main env = Except.ok out ∧ out.stdout = "The average is: 30\n" ∧
      out.stdout.toList.count (Char.ofNat 10) = 1 ∧ formatDouble 30 = "30" :=
  ⟨_, main_eq env, rfl, by decide, formatDouble_thirty⟩

/-- C3, as stated, fails: for the non-empty sequence `[2147483647, 1]` of
`int`s the accumulator wraps to `-2147483648`, so the program's average is
`-1073741824` while `sum(S)/len(S)` is `1073741824`. -/
theorem C3_counterexample :
    isInt 2147483647 ∧ isInt 1 ∧ sumOf [2147483647, 1] = -2147483648 ∧
      average [2147483647, 1] = some (-1073741824) ∧
      meanSpec [2147483647, 1] = some 1073741824 ∧
      average [2147483647, 1] ≠ meanSpec [2147483647, 1] ∧
      averageExact [2147483647, 1] ≠ meanExact [2147483647, 1] := by
  have hsum : sumOf [2147483647, 1] = -2147483648 := by decide
  have havg : average [2147483647, 1] = some (-1073741824) := by
    have h := divide_of_dvd (-2147483648) (-1073741824) 2
      (by decide) (by decide) (by decide) (by decide) (by decide)
    unfold average intToDouble
    rw [hsum]
    simpa using h
  have hspec : meanSpec [2147483647, 1] = some 1073741824 := by
    have h := divide_of_dvd 2147483648 1073741824 2
      (by decide) (by decide) (by decide) (by decide) (by decide)
    unfold meanSpec
    simpa using h
  refine ⟨by decide, by decide, hsum, havg, hspec, ?_, ?_⟩
  · rw [havg, hspec]
    norm_num
  · intro h
    have := (averageExact_eq_meanExact_iff [2147483647, 1] (by decide)).1 h
    revert this
    decide

/-- C3, amended: for every non-empty sequence `S` of `int`s the program's
average is the floating-point quotient of the sum reduced modulo `2^32` by
the size; it is `sum(S)/len(S)` computed in floating point whenever the
mathematical sum is representable in an `int`, and as exact rationals the two
agree exactly in that case. -/
theorem C3_average_when_sum_representable (S : List Int) (hne : S ≠ [])
    (_hS : ∀ n ∈ S, isInt n) :
    average S = divide (intToDouble (wrapInt S.sum)) (sizeToDouble S.length) ∧
      (isInt S.sum → average S = meanSpec S) ∧
      (averageExact S = meanExact S ↔ isInt S.sum) := by
  refine ⟨?_, ?_, averageExact_eq_meanExact_iff S hne⟩
  · unfold average
    rw [sumOf_eq_wrapInt_sum]
  · intro h
    unfold average meanSpec intToDouble
    rw [sumOf_eq_wrapInt_sum, wrapInt_of_isInt h]

/-- Witness of C3 (amended) at `S = [10, 20, 30, 40, 50]`, whose sum 150 is
representable. -/
theorem C3_average_when_sum_representable_witness :
    numbers ≠ [] ∧ (∀ n ∈ numbers, isInt n) ∧ isInt numbers.sum ∧
      average numbers = meanSpec numbers ∧ averageExact numbers = meanExact numbers :=
  have h := C3_average_when_sum_representable numbers (by decide) (by decide)
  ⟨by decide, by decide, by decide, h.2.1 (by decide), h.2.2.2 (by decide)⟩

/-- C4: `main` returns, its exit status is 0, and no run ends in the error
branch. -/
theorem C4_exit_status (env : Environment) :
    (∃ out, main env = Except.ok out ∧ out.exitCode = 0) ∧
      ∀ f, main env ≠ Except.error f := by
  rw [main_eq env]
  exact ⟨⟨_, rfl, rfl⟩, fun f h => by cases h⟩

/-- C5: the divisor `numbers.size()` is 5, hence non-zero as a `double`, so
the guarded division never takes its zero-divisor branch in `main`. -/
theorem C5_divisor_nonzero :
    numbers.length = 5 ∧ sizeToDouble numbers.length = 5 ∧
      sizeToDouble numbers.length ≠ 0 ∧
      (∀ a, divide a (sizeToDouble numbers.length) ≠ none) ∧ average numbers ≠ none := by
  have h5 : sizeToDouble numbers.length ≠ 0 := by
    rw [sizeToDouble_numbers]
    norm_num
  refine ⟨rfl, sizeToDouble_numbers, h5, ?_, ?_⟩
  · intro a
    unfold divide
    rw [if_neg h5]
    exact Option.some_ne_none _
  · rw [average_numbers]
    exact Option.some_ne_none _

/-- C6: over the hardcoded sequence the accumulator holds 0, 10, 30, 60,
100, 150; these are also the mathematical partial sums, all of them lie in
`[-2^31, 2^31 - 1]`, no iteration overflows, and the wrap-around sum is the
mathematical sum. -/
theorem C6_no_overflow :
    loopTrace 0 numbers = [0, 10, 30, 60, 100, 150] ∧
      List.scanl (fun acc n => acc + n) 0 numbers = [0, 10, 30, 60, 100, 150] ∧
      (∀ v ∈ loopTrace 0 numbers, -2 ^ 31 ≤ v ∧ v ≤ 2 ^ 31 - 1) ∧
      noOverflow 0 numbers ∧ sumOf numbers = numbers.sum ∧ numbers.sum = 150 := by
  decide

/-- C7: the loop's sum does not depend on the order of the elements: a
permutation `P` of `S` gives the same `sum`; every reordering of the
hardcoded sequence gives 150. -/
theorem C7_order_independent (S P : List Int) (h : List.Perm P S) :
    sumOf P = sumOf S ∧ (S = numbers → sumOf P = 150) := by
  have hPS : sumOf P = sumOf S := by
    rw [sumOf_eq_wrapInt_sum, sumOf_eq_wrapInt_sum, h.sum_eq]
  refine ⟨hPS, ?_⟩
  intro hS
  rw [hPS, hS, sumOf_numbers]

/-- Witness of C7 at a reordering of the hardcoded sequence. -/
theorem C7_order_independent_witness :
    List.Perm [50, 10, 40, 20, 30] numbers ∧
      sumOf [50, 10, 40, 20, 30] = sumOf numbers ∧ sumOf [50, 10, 40, 20, 30] = 150 :=
  have h := C7_order_independent numbers [50, 10, 40, 20, 30] (by decide)
  ⟨by decide, h.1, h.2 rfl⟩

/-- C8: `main` is a constant function of its environment: any two runs give
the same output text and the same exit status. -/
theorem C8_deterministic (env₁ env₂ : Environment) :
    main env₁ = main env₂ ∧
      ∃ out, main env₁ = Except.ok out ∧ main env₂ = Except.ok out :=
  ⟨rfl, _, main_eq env₁, main_eq env₂⟩

/-- C9: for a non-empty sequence `S` of `int`s whose running partial sums
all stay in `[-2^31, 2^31 - 1]`, the program's average taken as an exact
rational is the mathematical sum divided by the length; the `double` the
program holds is the binary64 rounding of that rational. -/
theorem C9_average_exact (S : List Int) (hne : S ≠ []) (_hS : ∀ n ∈ S, isInt n)
    (hno : noOverflow 0 S) :
    averageExact S = (S.sum : Rat) / (S.length : Rat) ∧
      (S.length < 2 ^ 53 →
        average S = some (roundToDouble ((S.sum : Rat) / (S.length : Rat)))) := by
  have hsum := sumOf_of_noOverflow S hno
  have hex : averageExact S = (S.sum : Rat) / (S.length : Rat) := by
    unfold averageExact
    rw [hsum]
  refine ⟨hex, fun hlen => ?_⟩
  rw [average_eq_roundToDouble S hne hlen, hex]

/-- Witness of C9 at the hardcoded sequence. -/
theorem C9_average_exact_witness :
    numbers ≠ [] ∧ (∀ n ∈ numbers, isInt n) ∧ noOverflow 0 numbers ∧
      averageExact numbers = (numbers.sum : Rat) / (numbers.length : Rat) :=
  ⟨by decide, by decide, by decide,
    (C9_average_exact numbers (by decide) (by decide) (by decide)).1⟩

/-- C10: the loop refines the left fold of addition: for every integer
sequence `S` the final `sum` is the fold of `+` from 0 over `S`, which is the
list sum, reduced to 32-bit wrap-around arithmetic; the empty sequence
gives 0. -/
theorem C10_loop_refines_fold (S : List Int) :
    sumOf S = foldSpec S ∧ foldSpec S = wrapInt S.sum ∧ sumOf [] = 0 := by
  have hfold : foldSpec S = wrapInt S.sum := by
    unfold foldSpec
    rw [foldl_add_eq_sum, zero_add]
  exact ⟨by rw [hfold, sumOf_eq_wrapInt_sum], hfold, rfl⟩

/-- C11: for a non-empty sequence `S` of `int`s whose partial sums do not
overflow, the program's average taken as an exact rational lies between the
smallest and the largest element of `S`, inclusive, and so does the `double`
the program holds; for the hardcoded sequence the average is between 10
and 50. -/
theorem C11_average_between_extremes (S : List Int) (hne : S ≠ [])
    (hS : ∀ n ∈ S, isInt n) (hno : noOverflow 0 S) :
    smallest S ∈ S ∧ largest S ∈ S ∧ (∀ n ∈ S, smallest S ≤ n ∧ n ≤ largest S) ∧
      (smallest S : Rat) ≤ averageExact S ∧ averageExact S ≤ (largest S : Rat) ∧
      (S.length < 2 ^ 53 →
        ∃ a, average S = some a ∧ (smallest S : Rat) ≤ a ∧ a ≤ (largest S : Rat)) ∧
      (10 : Rat) ≤ averageExact numbers ∧ averageExact numbers ≤ 50 := by
  obtain ⟨h1, h2⟩ := meanExact_between S hne (smallest S) (largest S)
    (fun n hn => smallest_le hn) (fun n hn => le_largest hn)
  have hnum : averageExact numbers = 30 := by
    unfold averageExact
    rw [sumOf_numbers]
    norm_num [numbers]
  rw [averageExact_of_noOverflow S hno, hnum]
  refine ⟨smallest_mem hne, largest_mem hne, fun n hn => ⟨smallest_le hn, le_largest hn⟩,
    h1, h2, fun hlen => average_between S hne hS hno hlen, ?_, ?_⟩ <;> norm_num

/-- Witness of C11 at the hardcoded sequence, whose extremes are 10 and 50. -/
theorem C11_average_between_extremes_witness :
    numbers ≠ [] ∧ (∀ n ∈ numbers, isInt n) ∧ noOverflow 0 numbers ∧
      smallest numbers = 10 ∧ largest numbers = 50 ∧
      (smallest numbers : Rat) ≤ averageExact numbers ∧
      averageExact numbers ≤ (largest numbers : Rat) :=
  have h := C11_average_between_extremes numbers (by decide) (by decide) (by decide)
  ⟨by decide, by decide, by decide, by decide, by decide, h.2.2.2.1, h.2.2.2.2.1⟩

end FileTools
